import Mathlib

-- Verification development for the ElasticETL data-shaping engine.
-- The definitions below are shallow embeddings of the Go source:
--   * pkg/extract (flattenJSON, applyFilters, matchesFilter, Extract,
--     extractDataFromResponse) and pkg/utils (MacroSubstituter),
--   * pkg/transform/transformer.go, first (depth-analysed) variant
--     (analyzeUniqueKeys, findArrayPaths, generateCSVRows, ...),
--   * pkg/utils/type_conversion.go (GEMStream.createPrometheusTimeSeriesForMetric).
-- Go maps are modelled as association lists whose order stands for the
-- (unspecified) map iteration order; Go strings are Lean strings over their
-- character lists.  External library calls (regexp compilation/matching,
-- strconv float parsing, time.Now) are passed in as parameters or modelled
-- by executable ASCII approximations, noted at each definition.

namespace ElasticETL

-- ### Character and string helpers (ASCII models of Go's strings/unicode).

def charLowerA (c : Char) : Char :=
  if 'A' ≤ c ∧ c ≤ 'Z' then Char.ofNat (c.toNat + 32) else c

def charUpperA (c : Char) : Char :=
  if 'a' ≤ c ∧ c ≤ 'z' then Char.ofNat (c.toNat - 32) else c

-- strings.ToLower / strings.ToUpper, restricted to ASCII letters.
def lowerStr (s : String) : String :=
  ⟨s.data.map charLowerA⟩

def upperStr (s : String) : String :=
  ⟨s.data.map charUpperA⟩

def isSpaceA (c : Char) : Bool :=
  c == ' ' || c == '\t' || c == '\n' || c == '\r' || c == '\x0b' || c == '\x0c'

-- strings.TrimSpace, restricted to ASCII whitespace.
def trimSpace (s : String) : String :=
  ⟨((s.data.dropWhile isSpaceA).reverse.dropWhile isSpaceA).reverse⟩

-- strings.Contains: scan every suffix for the needle as a prefix.
def containsAux (needle : List Char) : List Char → Bool
  | [] => needle.isEmpty
  | c :: t => needle.isPrefixOf (c :: t) || containsAux needle t

def strContains (s sub : String) : Bool :=
  containsAux sub.data s.data

-- strings.ReplaceAll: replace non-overlapping occurrences left to right.
-- The fuel argument (instantiated with the string length, an upper bound on
-- the number of recursion steps) keeps the recursion structural; Go's
-- behaviour on an empty pattern (insertion at every position) is not needed
-- here because every pattern used is a non-empty literal.
def replAllAux (pat rep : List Char) : Nat → List Char → List Char
  | _, [] => []
  | 0, s => s
  | fuel + 1, c :: t =>
    if pat ≠ [] ∧ pat.isPrefixOf (c :: t) then
      rep ++ replAllAux pat rep fuel ((c :: t).drop pat.length)
    else
      c :: replAllAux pat rep fuel t

def strReplaceAll (s pat rep : String) : String :=
  ⟨replAllAux pat.data rep.data s.data.length s.data⟩

-- strings.Replace with count 1: replace only the first occurrence.
def replFirstAux (pat rep : List Char) : Nat → List Char → List Char
  | _, [] => []
  | 0, s => s
  | fuel + 1, c :: t =>
    if pat ≠ [] ∧ pat.isPrefixOf (c :: t) then
      rep ++ (c :: t).drop pat.length
    else
      c :: replFirstAux pat rep fuel t

def strReplaceFirst (s pat rep : String) : String :=
  ⟨replFirstAux pat.data rep.data s.data.length s.data⟩

-- Boolean lexicographic comparison on character lists, mirroring the
-- byte-wise order used by Go's sort.Strings on ASCII data.
def listLtB : List Char → List Char → Bool
  | [], [] => false
  | [], _ :: _ => true
  | _ :: _, [] => false
  | c :: cs, d :: ds => if c < d then true else if d < c then false else listLtB cs ds

def strLeB (a b : String) : Bool :=
  !(listLtB b.data a.data)

-- sort.Strings / sort.Ints.
def sortStr (l : List String) : List String :=
  List.insertionSort (fun a b => strLeB a b = true) l

def sortNat (l : List Nat) : List Nat :=
  List.insertionSort (fun a b => a ≤ b) l

-- Decimal digits to a natural number (the numeric part of strconv.Atoi).
def natOfDigits (ds : List Char) : Nat :=
  ds.foldl (fun acc c => acc * 10 + (c.toNat - 48)) 0

def int64Max : Nat := 9223372036854775807

-- strconv.ParseInt(s, 10, 64): optional sign, one or more decimal digits,
-- result within the signed 64-bit range.
def parseDigits64 (ds : List Char) (neg : Bool) : Option Int :=
  if ds = [] ∨ ¬ ds.all (fun c => c.isDigit) then none
  else
    let n := natOfDigits ds
    if neg then
      if n ≤ int64Max + 1 then some (-(n : Int)) else none
    else
      if n ≤ int64Max then some (n : Int) else none

def parseInt64 (s : String) : Option Int :=
  match s.data with
  | [] => none
  | '+' :: ds => parseDigits64 ds false
  | '-' :: ds => parseDigits64 ds true
  | ds => parseDigits64 ds false

-- strings.Join(parts, "|").
def joinBar : List String → String
  | [] => ""
  | [s] => s
  | s :: rest => s ++ "|" ++ joinBar rest

-- ### JSON values and flat maps.

-- Go's interface{} JSON tree.  Numbers are carried exactly (encoding/json
-- produces float64; the binary rounding of IEEE doubles is not modelled, and
-- no claim proved here depends on it).
inductive Json where
  | null
  | bool (b : Bool)
  | num (q : Rat)
  | str (s : String)
  | arr (elems : List Json)
  | obj (fields : List (String × Json))

-- A flattened result: dotted/indexed path to remaining value.  The list
-- order models the (unspecified) Go map iteration order.
abbrev FlatMap := List (String × Json)

-- Go map write m[k] = v: replace the binding if present, else append.
def insertRep (m : FlatMap) (k : String) (v : Json) : FlatMap :=
  match m with
  | [] => [(k, v)]
  | (k2, v2) :: rest => if k2 = k then (k, v) :: rest else (k2, v2) :: insertRep rest k v

-- Merging a child map into the accumulator (for k, v := range child { m[k] = v }).
def mergeIn (acc child : FlatMap) : FlatMap :=
  child.foldl (fun a kv => insertRep a kv.1 kv.2) acc

-- Go map read m[k].
def lookupFM (m : FlatMap) (k : String) : Option Json :=
  match m with
  | [] => none
  | (k2, v) :: rest => if k2 = k then some v else lookupFM rest k

def joinKey (pfx k : String) : String :=
  if pfx = "" then k else pfx ++ "." ++ k

-- ### Extractor: recursive flattening (extract/extractor.go flattenJSON).

mutual
def flattenJSON (j : Json) (pfx : String) : FlatMap :=
  match j with
  | .obj [(k, v)] =>
    -- single key-value pair whose key lowercases to "value" collapses
    if lowerStr k = "value" then
      [(if pfx = "" then "value" else pfx, v)]
    else
      flattenFields [(k, v)] pfx []
  | .obj fields => flattenFields fields pfx []
  | .arr elems => flattenElems elems 0 pfx []
  | .null => [(if pfx = "" then "value" else pfx, .null)]
  | .bool b => [(if pfx = "" then "value" else pfx, .bool b)]
  | .num q => [(if pfx = "" then "value" else pfx, .num q)]
  | .str s => [(if pfx = "" then "value" else pfx, .str s)]
termination_by sizeOf j

def flattenFields (fields : List (String × Json)) (pfx : String) (acc : FlatMap) : FlatMap :=
  match fields with
  | [] => acc
  | (k, v) :: rest =>
    flattenFields rest pfx (mergeIn acc (flattenJSON v (joinKey pfx k)))
termination_by sizeOf fields

def flattenElems (elems : List Json) (i : Nat) (pfx : String) (acc : FlatMap) : FlatMap :=
  match elems with
  | [] => acc
  | e :: rest =>
    flattenElems rest (i + 1) pfx (mergeIn acc (flattenJSON e (pfx ++ "[" ++ toString i ++ "]")))
termination_by sizeOf elems
end

-- ### Extractor: key filters (extract/extractor.go applyFilters / matchesFilter).

structure FilterConfig where
  type : String
  pattern : String

-- matchesFilter: regexp.Compile + MatchString are external; they enter as a
-- compile oracle.  compile p = none models an invalid regular expression, in
-- which case the source falls back to exact string equality.
def matchesFilter (compile : String → Option (String → Bool)) (key pat : String) : Bool :=
  match compile pat with
  | some m => m key
  | none => pat == key

def applyFilters (compile : String → Option (String → Bool))
    (filters : List FilterConfig) (data : FlatMap) : FlatMap :=
  if filters.isEmpty then data
  else
    let hasInc := filters.any (fun f => f.type == "include")
    let init := if hasInc then [] else data
    filters.foldl (fun res f =>
      if f.type == "exclude" then
        res.filter (fun kv => !(matchesFilter compile kv.1 f.pattern))
      else if f.type == "include" then
        data.foldl (fun r kv =>
          if matchesFilter compile kv.1 f.pattern then insertRep r kv.1 kv.2 else r) res
      else res) init

-- ### Extractor: response selection (extract/extractor.go extractDataFromResponse).

-- The gjson.Get selection is external; its outcome on the response body for
-- the configured path enters as the parameter sel (none: path does not
-- exist).  The body is taken already parsed; unmarshalling errors are out of
-- scope of the claims settled here.
def extractDataFromResponse (compile : String → Option (String → Bool))
    (filters : List FilterConfig) (jsonPath : String)
    (sel : Option Json) (body : Json) : FlatMap :=
  if jsonPath = "" then
    flattenJSON body ""
  else
    match sel with
    | none => []
    | some sub => applyFilters compile filters (flattenJSON sub "")

-- ### Extractor: per-run aggregation (extract/extractor.go Extract).

-- The concurrent fan-out is modelled by the list of per-endpoint outcomes in
-- issue order; each issued call either produces a result or an error.
def okResults (outcomes : List (Except ε α)) : List α :=
  outcomes.filterMap (fun o => match o with | .ok r => some r | .error _ => none)

def errResults (outcomes : List (Except ε α)) : List ε :=
  outcomes.filterMap (fun o => match o with | .error e => some e | .ok _ => none)

def isOkE : Except ε α → Bool
  | .ok _ => true
  | .error _ => false

def extractCollect (outcomes : List (Except ε α)) : Except (List ε) (List α) :=
  if (okResults outcomes).isEmpty && !(errResults outcomes).isEmpty then
    .error (errResults outcomes)
  else
    .ok (okResults outcomes)

-- ### Macro substituter (utils/macro.go SubstituteQuery / parseTimeExpression).

def clusterMacro : String := "__CLUSTER__"
def startMacro : String := "__STARTTIME__"
def endMacro : String := "__ENDTIME__"

-- Regex ^NOW\s*([+-])\s*(\d+)\s*(MIN|SEC)$ applied to the upper-cased
-- trimmed expression, returning the signed offset in milliseconds.
-- strconv.Atoi overflow on the digit group is folded into the failure case;
-- the source then reports an error either way (its ParseInt fallback cannot
-- accept a string starting with NOW).
def parseNowOffset (cs : List Char) : Option Int :=
  match cs with
  | 'N' :: 'O' :: 'W' :: rest =>
    match rest.dropWhile isSpaceA with
    | c :: r2 =>
      if c = '+' ∨ c = '-' then
        let r3 := r2.dropWhile isSpaceA
        let ds := r3.takeWhile (fun d => d.isDigit)
        if ds = [] then none
        else
          let r4 := (r3.drop ds.length).dropWhile isSpaceA
          let unitMs : Option Int :=
            match r4 with
            | ['M', 'I', 'N'] => some 60000
            | ['S', 'E', 'C'] => some 1000
            | _ => none
          match unitMs with
          | none => none
          | some u =>
            let n := natOfDigits ds
            if int64Max < n then none
            else some ((if c = '-' then -1 else 1) * (n : Int) * u)
      else none
    | [] => none
  | _ => none

-- parseTimeExpression; time.Now() enters as the parameter now (milliseconds).
def parseTimeExpression (now : Int) (expr : String) : Except String Int :=
  let e := trimSpace expr
  if upperStr e = "NOW" then .ok now
  else
    match parseNowOffset (upperStr e).data with
    | some off => .ok (now + off)
    | none =>
      match parseInt64 e with
      | some n => .ok n
      | none => .error ("invalid time expression: " ++ e)

-- The __ENDTIME__ stage of SubstituteQuery, applied to the intermediate
-- query string r (after __CLUSTER__ and __STARTTIME__ handling).
def substEndStage (endTime : String) (now : Int) (r : String) : Except String String :=
  if strContains r endMacro then
    if endTime = "" then .error "__ENDTIME__ macro found in query but end_time not configured"
    else
      match parseTimeExpression now endTime with
      | .error e => .error ("failed to parse end_time: " ++ e)
      | .ok v => .ok (strReplaceAll r endMacro (toString v))
  else .ok r

def substituteQuery (startTime endTime : String) (now : Int)
    (query clusterName : String) : Except String String :=
  let r1 := strReplaceAll query clusterMacro clusterName
  if strContains r1 startMacro then
    if startTime = "" then .error "__STARTTIME__ macro found in query but start_time not configured"
    else
      match parseTimeExpression now startTime with
      | .error e => .error ("failed to parse start_time: " ++ e)
      | .ok v => substEndStage endTime now (strReplaceAll r1 startMacro (toString v))
  else substEndStage endTime now r1

-- The intermediate string on which SubstituteQuery performs its __ENDTIME__
-- containment check (the query after __CLUSTER__ replacement and, when the
-- __STARTTIME__ stage succeeded, after __STARTTIME__ replacement).
def afterStartStage (startTime : String) (now : Int)
    (query clusterName : String) : String :=
  let r1 := strReplaceAll query clusterMacro clusterName
  if strContains r1 startMacro then
    match parseTimeExpression now startTime with
    | .error _ => r1
    | .ok v => strReplaceAll r1 startMacro (toString v)
  else r1

-- ### Transformer: depth-analysed CSV conversion (transform/transformer.go).

-- removeArrayIndices: delete every [<digits>] segment (regex \[\d+\], all
-- occurrences, left to right).
def stripIdxAux : Nat → List Char → List Char
  | _, [] => []
  | 0, s => s
  | fuel + 1, c :: t =>
    if c = '[' then
      match t.takeWhile (fun d => d.isDigit), t.drop (t.takeWhile (fun d => d.isDigit)).length with
      | _ :: _, ']' :: rest => stripIdxAux fuel rest
      | _, _ => c :: stripIdxAux fuel t
    else c :: stripIdxAux fuel t

def removeArrayIndices (k : String) : String :=
  ⟨stripIdxAux k.data.length k.data⟩

-- calculateKeyDepth: one plus the number of dots.
def calculateKeyDepth (k : String) : Nat :=
  1 + k.data.count '.'

-- Set-like insertion used to model Go map-backed key sets.
def insertIfAbsent (l : List String) (k : String) : List String :=
  if l.contains k then l else l ++ [k]

def dedupFirst (l : List String) : List String :=
  l.foldl insertIfAbsent []

-- keysByDepth grouping (depth → keys at that depth, in encounter order).
def addToGroup (gs : List (Nat × List String)) (d : Nat) (k : String) :
    List (Nat × List String) :=
  match gs with
  | [] => [(d, [k])]
  | (d2, ks) :: rest =>
    if d2 = d then (d2, ks ++ [k]) :: rest else (d2, ks) :: addToGroup rest d k

def lookupGroup (gs : List (Nat × List String)) (d : Nat) : List String :=
  match gs with
  | [] => []
  | (d2, ks) :: rest => if d2 = d then ks else lookupGroup rest d

-- analyzeUniqueKeys for one result's flattened map (the source unions the
-- key sets of all results of a batch; a batch of one contributes exactly its
-- own key set).
def analyzeUniqueKeys (data : FlatMap) : List String :=
  let allKeys := dedupFirst (data.map Prod.fst)
  let grouped := allKeys.foldl (fun gs k => addToGroup gs (calculateKeyDepth k) k) []
  let maxDepth := allKeys.foldl (fun m k => max m (calculateKeyDepth k)) 0
  let uniq := (List.range maxDepth).foldl
    (fun acc d =>
      (lookupGroup grouped (d + 1)).foldl
        (fun a k => insertIfAbsent a (removeArrayIndices k)) acc) []
  sortStr uniq

-- All non-overlapping matches of \[(\d+)\] with their start positions and
-- parsed indices (strconv.Atoi overflow on absurdly long digit groups is not
-- modelled: indices are kept as unbounded naturals).
def bracketScan : Nat → List Char → Nat → List (Nat × Nat) → List (Nat × Nat)
  | _, [], _, acc => acc
  | 0, _, _, acc => acc
  | fuel + 1, c :: t, pos, acc =>
    if c = '[' then
      match t.takeWhile (fun d => d.isDigit), t.drop (t.takeWhile (fun d => d.isDigit)).length with
      | ds@(_ :: _), ']' :: rest =>
        bracketScan fuel rest (pos + ds.length + 2) (acc ++ [(pos, natOfDigits ds)])
      | _, _ => bracketScan fuel t (pos + 1) acc
    else bracketScan fuel t (pos + 1) acc

def allBracketMatches (cs : List Char) : List (Nat × Nat) :=
  bracketScan cs.length cs 0 []

-- extractArrayPathAndIndex: path before the last bracketed index and that
-- index; none when the key holds no bracketed index.  The caller ignores
-- results with an empty path, which the source encodes by its path != ""
-- check (the no-match case returns path "" as well).
def extractArrayPathAndIndex (k : String) : Option (String × Nat) :=
  match (allBracketMatches k.data).getLast? with
  | none => none
  | some (pos, idx) => some (⟨k.data.take pos⟩, idx)

-- Association update used by findArrayPaths: record an index for a path,
-- skipping indices already present.
def addIdx (gs : List (String × List Nat)) (p : String) (i : Nat) :
    List (String × List Nat) :=
  match gs with
  | [] => [(p, [i])]
  | (p2, is) :: rest =>
    if p2 = p then (p2, if is.contains i then is else is ++ [i]) :: rest
    else (p2, is) :: addIdx rest p i

def findArrayPaths (data : FlatMap) : List (String × List Nat) :=
  let raw := data.foldl (fun acc kv =>
    match extractArrayPathAndIndex kv.1 with
    | some (path, idx) => if path ≠ "" then addIdx acc path idx else acc
    | none => acc) []
  raw.map (fun e => (e.1, sortNat e.2))

def lookupIdxs (gs : List (String × List Nat)) (p : String) : List Nat :=
  match gs with
  | [] => []
  | (p2, is) :: rest => if p2 = p then is else lookupIdxs rest p

-- generateCombinationsRecursive: one combination per choice of an index for
-- each path, enumerated in index order per path.
def generateCombinationsRecursive (ap : List (String × List Nat)) :
    List String → List (List (String × Nat))
  | [] => [[]]
  | p :: rest =>
    ((lookupIdxs ap p).map (fun i =>
      (generateCombinationsRecursive ap rest).map (fun c => (p, i) :: c))).flatten

def generateArrayCombinations (ap : List (String × List Nat)) :
    List (List (String × Nat)) :=
  if ap.isEmpty then [[]]
  else generateCombinationsRecursive ap (sortStr (ap.map Prod.fst))

-- Association lookup in an index combination.
def lookupComb (comb : List (String × Nat)) (p : String) : Option Nat :=
  match comb with
  | [] => none
  | (p2, i) :: rest => if p2 = p then some i else lookupComb rest p

-- sort.Slice by decreasing path length (the source's sort is not stable;
-- ties keep the model's encounter order).
def sortByLenDesc (l : List (String × Nat)) : List (String × Nat) :=
  List.insertionSort (fun a b => b.1.length ≤ a.1.length) l

-- buildSpecificKey: substitute path[idx] for the first occurrence of each
-- combination path that prefixes the partially rewritten key, longest path
-- first.
def buildSpecificKey (uniqueKey : String) (comb : List (String × Nat)) : String :=
  (sortByLenDesc comb).foldl (fun result e =>
    if e.1.data.isPrefixOf result.data then
      strReplaceFirst result e.1 (e.1 ++ "[" ++ toString e.2 ++ "]")
    else result) uniqueKey

-- First match of QuoteMeta(path)\[(\d+)\] in a key: the parsed index of the
-- first occurrence of the literal path followed directly by [digits].
def findPathIdxAux (pat : List Char) : Nat → List Char → Option Nat
  | _, [] => none
  | 0, _ => none
  | fuel + 1, c :: t =>
    if pat.isPrefixOf (c :: t) then
      match (c :: t).drop pat.length with
      | '[' :: r2 =>
        match r2.takeWhile (fun d => d.isDigit), r2.drop (r2.takeWhile (fun d => d.isDigit)).length with
        | ds@(_ :: _), ']' :: _ => some (natOfDigits ds)
        | _, _ => findPathIdxAux pat fuel t
      | _ => findPathIdxAux pat fuel t
    else findPathIdxAux pat fuel t

def findPathIdx (key path : String) : Option Nat :=
  findPathIdxAux path.data key.data.length key.data

-- matchesKeyPattern: de-indexed equality plus agreement with the
-- combination's index at every contained path.
def matchesKeyPattern (key uniqueKey : String) (comb : List (String × Nat)) : Bool :=
  removeArrayIndices key == uniqueKey &&
    comb.all (fun e =>
      if strContains key e.1 then
        match findPathIdx key e.1 with
        | some actual => actual == e.2
        | none => true
      else true)

def findValueForUniqueKey (data : FlatMap) (uniqueKey : String) : Option Json :=
  match lookupFM data uniqueKey with
  | some v => some v
  | none =>
    match data.find? (fun kv => removeArrayIndices kv.1 == uniqueKey) with
    | some kv => some kv.2
    | none => none

def findValueForCombination (data : FlatMap) (uniqueKey : String)
    (comb : List (String × Nat)) : Option Json :=
  match lookupFM data uniqueKey with
  | some v => some v
  | none =>
    match lookupFM data (buildSpecificKey uniqueKey comb) with
    | some v => some v
    | none =>
      match data.find? (fun kv => matchesKeyPattern kv.1 uniqueKey comb) with
      | some kv => some kv.2
      | none => none

-- formatValue.  Go prints float64 cells with %.15f of the binary double;
-- numbers are carried exactly here and rendered from the rational.  No claim
-- settled in this file depends on the rendered digits of a number.
def formatValue : Json → String
  | .null => ""
  | .str s => s
  | .bool b => if b then "true" else "false"
  | .num q => if q.den = 1 then toString q.num else toString q
  | .arr _ => ""
  | .obj _ => ""

def formatValueOpt : Option Json → String
  | none => ""
  | some v => formatValue v

-- generateCSVRows: one row when no array path is present, otherwise one row
-- per combination of array indices.
def generateCSVRows (data : FlatMap) (uniqueKeys : List String) : List (List String) :=
  let arrayPaths := findArrayPaths data
  if arrayPaths.isEmpty then
    [uniqueKeys.map (fun h => formatValueOpt (findValueForUniqueKey data h))]
  else
    (generateArrayCombinations arrayPaths).map (fun comb =>
      uniqueKeys.map (fun h => formatValueOpt (findValueForCombination data h comb)))

-- Array paths as the specification's glossary defines them ("the dotted
-- prefix preceding an [<int>] segment"): every bracketed index of every key
-- contributes its preceding prefix.  This claim-side definition exists only
-- to compare the specification's row-count law against the source's
-- findArrayPaths, which records just the prefix of the last bracket of each
-- key and drops empty prefixes.
def specArrayPaths (data : FlatMap) : List (String × List Nat) :=
  data.foldl (fun acc kv =>
    (allBracketMatches kv.1.data).foldl
      (fun a m => addIdx a ⟨kv.1.data.take m.1⟩ m.2) acc) []

-- ### Transformer: history ring (storePreviousResults / UpdateConfig).

def storePreviousResults (sets : Nat) (prev : List α) (cur : α) : List α :=
  let l := prev ++ [cur]
  if sets < l.length then l.drop (l.length - sets) else l

def updateConfigPrevResults (sets : Nat) (prev : List α) : List α :=
  if sets < prev.length then prev.drop (prev.length - sets) else prev

-- ### Loader: grouped time series (type_conversion.go
-- GEMStream.createPrometheusTimeSeriesForMetric).

structure PrometheusLabelConfig where
  labelName : String
  indexInCSVData : Nat
  staticValue : String

structure PrometheusMetricConfig where
  name : String
  uniqueFieldsIndex : List Nat
  value : Nat
  timestamp : Nat
  labels : List PrometheusLabelConfig

structure TimeSeriesOut (V : Type) where
  labels : List (String × String)
  samples : List (V × Int)

-- The unique-group key: "|"-join of the row's cells at the configured
-- unique-field indices (indices beyond the row length contribute nothing).
def rowKey (metric : PrometheusMetricConfig) (row : List String) : String :=
  joinBar (metric.uniqueFieldsIndex.foldl
    (fun acc idx => if idx < row.length then acc ++ [row.getD idx ""] else acc) [])

-- The per-row guard and parses of the grouping loop: a row is dropped when
-- it is too short for the value or timestamp column, or when either cell
-- fails to parse.  strconv.ParseFloat / ParseInt are external and enter as
-- the parse oracles.
def rowAccept (parseF : String → Option V) (parseI : String → Option Int)
    (metric : PrometheusMetricConfig) (row : List String) : Option (V × Int) :=
  if row.length ≤ metric.value ∨ row.length ≤ metric.timestamp then none
  else
    match parseF (row.getD metric.value ""), parseI (row.getD metric.timestamp "") with
    | some v, some ts => some (v, ts)
    | _, _ => none

-- uniqueGroups[key] = append(uniqueGroups[key], sample): append to the
-- group, creating it at the end on first encounter.
def addSample (gs : List (String × List (V × Int × List String)))
    (key : String) (s : V × Int × List String) :
    List (String × List (V × Int × List String)) :=
  match gs with
  | [] => [(key, [s])]
  | (k2, ss) :: rest =>
    if k2 = key then (k2, ss ++ [s]) :: rest else (k2, ss) :: addSample rest key s

-- Label construction for one series: __name__, then the static-value /
-- csv-column label rules, then the stream's configured labels.
def buildMetricLabels (metric : PrometheusMetricConfig)
    (glabels : List (String × String)) (row : List String) :
    List (String × String) :=
  let base := [("__name__", metric.name)]
  let withDyn := metric.labels.foldl (fun acc lb =>
    if lb.staticValue ≠ "" then
      (acc.filter (fun kv => kv.1 ≠ lb.labelName)) ++ [(lb.labelName, lb.staticValue)]
    else if lb.indexInCSVData < row.length then
      (acc.filter (fun kv => kv.1 ≠ lb.labelName)) ++ [(lb.labelName, row.getD lb.indexInCSVData "")]
    else acc) base
  glabels.foldl (fun acc kv => (acc.filter (fun e => e.1 ≠ kv.1)) ++ [(kv.1, kv.2)]) withDyn

-- The uniqueGroups accumulation loop of createPrometheusTimeSeriesForMetric.
def groupRows (parseF : String → Option V) (parseI : String → Option Int)
    (metric : PrometheusMetricConfig) (csvData : List (List String)) :
    List (String × List (V × Int × List String)) :=
  csvData.foldl (fun gs row =>
    match rowAccept parseF parseI metric row with
    | none => gs
    | some (v, ts) => addSample gs (rowKey metric row) (v, ts, row)) []

def createPrometheusTimeSeriesForMetric (parseF : String → Option V)
    (parseI : String → Option Int) (glabels : List (String × String))
    (csvData : List (List String)) (metric : PrometheusMetricConfig) :
    List (TimeSeriesOut V) :=
  (groupRows parseF parseI metric csvData).filterMap (fun g =>
    match g.2 with
    | [] => none
    | first :: rest =>
      some { labels := buildMetricLabels metric glabels first.2.2,
             samples := (first :: rest).map (fun s => (s.1, s.2.1)) })

-- Claim-side characterization of the grouping (one series per distinct
-- group key in first-encounter order; a group's samples are its accepted
-- rows' parsed pairs in row order; labels from the group's first row).
def samplesFor (parseF : String → Option V) (parseI : String → Option Int)
    (metric : PrometheusMetricConfig) (csvData : List (List String))
    (k : String) : List (V × Int × List String) :=
  csvData.filterMap (fun r =>
    match rowAccept parseF parseI metric r with
    | some (v, ts) => if rowKey metric r = k then some (v, ts, r) else none
    | none => none)

def acceptedRows (parseF : String → Option V) (parseI : String → Option Int)
    (metric : PrometheusMetricConfig) (csvData : List (List String)) :
    List (List String) :=
  csvData.filter (fun r => (rowAccept parseF parseI metric r).isSome)

def seriesSpec (parseF : String → Option V) (parseI : String → Option Int)
    (glabels : List (String × String)) (csvData : List (List String))
    (metric : PrometheusMetricConfig) : List (TimeSeriesOut V) :=
  (dedupFirst ((acceptedRows parseF parseI metric csvData).map (rowKey metric))).filterMap
    (fun k =>
      match samplesFor parseF parseI metric csvData k with
      | [] => none
      | first :: rest =>
        some { labels := buildMetricLabels metric glabels first.2.2,
               samples := (first :: rest).map (fun s => (s.1, s.2.1)) })

-- ### Concrete inputs used by evaluation theorems.

-- The canonical nested-array flat map of the repository's CSV guide
-- (NESTED_ARRAY_CSV_GUIDE.md): two services, two hosts each, two cpu_usage
-- buckets each.
def canonicalData : FlatMap :=
  [ ("[0].key", .str "api-service"),
    ("[0].doc_count", .num 1000),
    ("[0].avg_response_time", .num 125.5),
    ("[0].hosts.buckets[0].key", .str "host-1"),
    ("[0].hosts.buckets[0].cpu_usage.buckets[0].system", .num 15.7),
    ("[0].hosts.buckets[0].cpu_usage.buckets[0].user", .num 55.2),
    ("[0].hosts.buckets[0].cpu_usage.buckets[0].idle", .num 57.3),
    ("[0].hosts.buckets[0].cpu_usage.buckets[1].system", .num 25.7),
    ("[0].hosts.buckets[0].cpu_usage.buckets[1].user", .num 53.1),
    ("[0].hosts.buckets[0].cpu_usage.buckets[1].idle", .num 25.2),
    ("[0].hosts.buckets[1].key", .str "host-2"),
    ("[0].hosts.buckets[1].cpu_usage.buckets[0].system", .num 35.7),
    ("[0].hosts.buckets[1].cpu_usage.buckets[0].user", .num 52.2),
    ("[0].hosts.buckets[1].cpu_usage.buckets[0].idle", .num 34.2),
    ("[0].hosts.buckets[1].cpu_usage.buckets[1].system", .num 15.7),
    ("[0].hosts.buckets[1].cpu_usage.buckets[1].user", .num 23.1),
    ("[0].hosts.buckets[1].cpu_usage.buckets[1].idle", .num 60.2),
    ("[1].key", .str "web-service"),
    ("[1].doc_count", .num 500),
    ("[1].avg_response_time", .num 89.3),
    ("[1].hosts.buckets[0].key", .str "host-3"),
    ("[1].hosts.buckets[0].cpu_usage.buckets[0].system", .num 6.7),
    ("[1].hosts.buckets[0].cpu_usage.buckets[0].user", .num 9.3),
    ("[1].hosts.buckets[0].cpu_usage.buckets[0].idle", .num 74.6),
    ("[1].hosts.buckets[0].cpu_usage.buckets[1].system", .num 27.0),
    ("[1].hosts.buckets[0].cpu_usage.buckets[1].user", .num 13.2),
    ("[1].hosts.buckets[0].cpu_usage.buckets[1].idle", .num 63.5),
    ("[1].hosts.buckets[1].key", .str "host-4"),
    ("[1].hosts.buckets[1].cpu_usage.buckets[0].system", .num 20.7),
    ("[1].hosts.buckets[1].cpu_usage.buckets[0].user", .num 12.3),
    ("[1].hosts.buckets[1].cpu_usage.buckets[0].idle", .num 54.5),
    ("[1].hosts.buckets[1].cpu_usage.buckets[1].system", .num 27.7),
    ("[1].hosts.buckets[1].cpu_usage.buckets[1].user", .num 33.4),
    ("[1].hosts.buckets[1].cpu_usage.buckets[1].idle", .num 40.9) ]

-- A flat map whose only bracketed indices sit at the top level (empty
-- preceding prefix): a two-element top-level array of objects.
def topArrData : FlatMap :=
  [("[0].a", .num 1), ("[1].a", .num 2)]

-- A flat map without any bracketed index.
def plainData : FlatMap :=
  [("plain", .num 1), ("other", .str "x")]

-- ## Helper lemmas.

theorem okResults_nil_iff (l : List (Except ε α)) :
    okResults l = [] ↔ ∀ o ∈ l, isOkE o = false := by
  simp only [okResults, List.filterMap_eq_nil_iff]
  refine forall_congr' fun o => imp_congr_right fun _ => ?_
  cases o <;> simp [isOkE]

theorem errResults_nil_iff (l : List (Except ε α)) :
    errResults l = [] ↔ ∀ o ∈ l, isOkE o = true := by
  simp only [errResults, List.filterMap_eq_nil_iff]
  refine forall_congr' fun o => imp_congr_right fun _ => ?_
  cases o <;> simp [isOkE]

theorem mem_insertRep {m : FlatMap} {k : String} {v : Json} {a : String × Json}
    (h : a ∈ insertRep m k v) : a ∈ m ∨ a = (k, v) := by
  induction m with
  | nil =>
    simp only [insertRep, List.mem_singleton] at h
    exact Or.inr h
  | cons kv rest ih =>
    obtain ⟨k2, v2⟩ := kv
    by_cases hk : k2 = k
    · simp only [insertRep, if_pos hk, List.mem_cons] at h
      rcases h with h | h
      · exact Or.inr h
      · exact Or.inl (List.mem_cons_of_mem _ h)
    · simp only [insertRep, if_neg hk, List.mem_cons] at h
      rcases h with h | h
      · exact Or.inl (by simp [h])
      · rcases ih h with h2 | h2
        · exact Or.inl (List.mem_cons_of_mem _ h2)
        · exact Or.inr h2

theorem insertRep_append {m : FlatMap} {k : String} {v : Json}
    (h : ∀ kv ∈ m, kv.1 ≠ k) : insertRep m k v = m ++ [(k, v)] := by
  induction m with
  | nil => simp [insertRep]
  | cons kv rest ih =>
    obtain ⟨k2, v2⟩ := kv
    have hk : k2 ≠ k := h (k2, v2) (by simp)
    simp only [insertRep, if_neg hk, List.cons_append, List.cons.injEq, true_and]
    exact ih fun kv2 h2 => h kv2 (List.mem_cons_of_mem _ h2)

theorem include_fold_matching (compile : String → Option (String → Bool)) (pat : String)
    (data : FlatMap) :
    ∀ res : FlatMap, (∀ kv ∈ res, matchesFilter compile kv.1 pat = true) →
      ∀ kv ∈ data.foldl
        (fun r kv => if matchesFilter compile kv.1 pat then insertRep r kv.1 kv.2 else r) res,
        matchesFilter compile kv.1 pat = true := by
  induction data with
  | nil => intro res hres kv hkv; exact hres kv hkv
  | cons e rest ih =>
    intro res hres kv hkv
    simp only [List.foldl_cons] at hkv
    by_cases hm : matchesFilter compile e.1 pat = true
    · rw [if_pos hm] at hkv
      refine ih (insertRep res e.1 e.2) ?_ kv hkv
      intro kv2 h2
      rcases mem_insertRep h2 with h3 | h3
      · exact hres kv2 h3
      · rw [h3]
        exact hm
    · rw [if_neg hm] at hkv
      exact ih res hres kv hkv

theorem include_fold_filter (compile : String → Option (String → Bool)) (pat : String) :
    ∀ data : FlatMap, (data.map Prod.fst).Nodup →
      ∀ res : FlatMap, (∀ kv ∈ data, ∀ kv2 ∈ res, kv2.1 ≠ kv.1) →
      data.foldl
        (fun r kv => if matchesFilter compile kv.1 pat then insertRep r kv.1 kv.2 else r) res =
        res ++ data.filter (fun kv => matchesFilter compile kv.1 pat) := by
  intro data
  induction data with
  | nil => intro _ res _; simp
  | cons e rest ih =>
    intro hnd res hdis
    simp only [List.map_cons, List.nodup_cons] at hnd
    obtain ⟨hhead, htail⟩ := hnd
    simp only [List.foldl_cons, List.filter_cons]
    by_cases hm : matchesFilter compile e.1 pat = true
    · rw [if_pos hm, if_pos hm]
      have happ : insertRep res e.1 e.2 = res ++ [(e.1, e.2)] :=
        insertRep_append fun kv2 h2 => hdis e (by simp) kv2 h2
      rw [happ]
      have := ih htail (res ++ [(e.1, e.2)]) ?_
      · rw [this, List.append_assoc]
        simp
      · intro kv hkv kv2 h2
        rcases List.mem_append.mp h2 with h3 | h3
        · exact hdis kv (List.mem_cons_of_mem _ hkv) kv2 h3
        · simp only [List.mem_singleton] at h3
          rw [h3]
          intro hcontra
          apply hhead
          rw [show e.1 = kv.1 from hcontra]
          exact List.mem_map_of_mem Prod.fst hkv
    · rw [if_neg hm, if_neg hm]
      exact ih htail res fun kv hkv kv2 h2 => hdis kv (List.mem_cons_of_mem _ hkv) kv2 h2

theorem substEndStage_error_iff (et : String) (now : Int) (r : String) :
    isOkE (substEndStage et now r) = false ↔
      (strContains r endMacro = true ∧
        (et = "" ∨ isOkE (parseTimeExpression now et) = false)) := by
  unfold substEndStage
  by_cases hc : strContains r endMacro = true
  · rw [if_pos hc]
    by_cases he : et = ""
    · rw [if_pos he]
      exact iff_of_true rfl ⟨hc, Or.inl he⟩
    · rw [if_neg he]
      cases hp : parseTimeExpression now et with
      | error e => exact iff_of_true rfl ⟨hc, Or.inr rfl⟩
      | ok v =>
        refine iff_of_false (by simp [isOkE]) ?_
        rintro ⟨-, h | h⟩
        · exact he h
        · cases h
  · rw [if_neg hc]
    refine iff_of_false (by simp [isOkE]) ?_
    rintro ⟨h, -⟩
    exact hc h

-- ## Claim theorems.

/-- C9: the history ring invariant.  After a store the retained list holds at
most `previous_results_sets` items, likewise after a configuration update;
the stored list is a suffix of the old list with the new set appended
(newest at the end, oldest evicted first); with the limit zero the ring is
empty after every store and every update. -/
theorem history_ring_invariant (sets : Nat) (prev : List α) (cur : α) :
    (storePreviousResults sets prev cur).length ≤ sets ∧
    (updateConfigPrevResults sets prev).length ≤ sets ∧
    List.IsSuffix (storePreviousResults sets prev cur) (prev ++ [cur]) ∧
    List.IsSuffix (updateConfigPrevResults sets prev) prev ∧
    storePreviousResults 0 prev cur = [] ∧
    updateConfigPrevResults 0 prev = [] := by
  refine ⟨?_, ?_, ?_, ?_, ?_, ?_⟩
  · simp only [storePreviousResults]
    split
    · simp only [List.length_drop]
      omega
    · next h =>
      simp only [List.length_append, List.length_singleton] at h ⊢
      omega
  · simp only [updateConfigPrevResults]
    split
    · simp only [List.length_drop]
      omega
    · next h => omega
  · simp only [storePreviousResults]
    split
    · exact List.drop_suffix _ _
    · exact List.suffix_refl _
  · simp only [updateConfigPrevResults]
    split
    · exact List.drop_suffix _ _
    · exact List.suffix_refl _
  · simp only [storePreviousResults]
    have hlen : 0 < (prev ++ [cur]).length := by simp
    simp only [if_pos hlen, Nat.sub_zero, List.drop_length]
  · simp only [updateConfigPrevResults]
    split
    · simp [List.drop_length]
    · next h =>
      have : prev.length = 0 := by omega
      exact List.eq_nil_of_length_eq_zero this

/-- C7: Extract fails if and only if at least one endpoint call was issued
and every issued call failed; when at least one call succeeds the run
returns exactly the successful results, so failed endpoints contribute
nothing and do not fail the run. -/
theorem extract_all_fail_iff (outcomes : List (Except ε α)) :
    (isOkE (extractCollect outcomes) = false ↔
      outcomes ≠ [] ∧ ∀ o ∈ outcomes, isOkE o = false) ∧
    ((∃ o ∈ outcomes, isOkE o = true) →
      extractCollect outcomes = .ok (okResults outcomes)) := by
  constructor
  · unfold extractCollect
    by_cases hc : ((okResults outcomes).isEmpty && !(errResults outcomes).isEmpty) = true
    · rw [if_pos hc]
      rw [Bool.and_eq_true, List.isEmpty_iff, Bool.not_eq_true'] at hc
      obtain ⟨hok, herr⟩ := hc
      have herr2 : errResults outcomes ≠ [] := by
        intro h
        rw [h] at herr
        simp at herr
      refine iff_of_true rfl ⟨?_, (okResults_nil_iff _).mp hok⟩
      intro hnil
      apply herr2
      rw [hnil]
      rfl
    · rw [if_neg hc]
      refine iff_of_false (by simp [isOkE]) ?_
      rintro ⟨hne, hall⟩
      apply hc
      rw [Bool.and_eq_true, List.isEmpty_iff, Bool.not_eq_true']
      refine ⟨(okResults_nil_iff _).mpr hall, ?_⟩
      have herr : errResults outcomes ≠ [] := by
        rcases outcomes with _ | ⟨o, rest⟩
        · exact absurd rfl hne
        · intro h
          have h1 := (errResults_nil_iff _).mp h o (by simp)
          have h2 := hall o (by simp)
          rw [h1] at h2
          cases h2
      cases hk : errResults outcomes
      · exact absurd hk herr
      · rfl
  · rintro ⟨o, ho, hok⟩
    unfold extractCollect
    have hne : okResults outcomes ≠ [] := by
      intro hnil
      have := (okResults_nil_iff _).mp hnil o ho
      rw [hok] at this
      cases this
    have : (okResults outcomes).isEmpty = false := by
      cases hk : okResults outcomes
      · exact absurd hk hne
      · rfl
    simp [this]

/-- C10: with an empty JSON path the extractor returns the whole flattened
body without applying the key filters; with a non-empty path it returns the
empty map when the path selects nothing, and the filtered flattening of the
selected subtree when it does. -/
theorem json_path_filter_branches (compile : String → Option (String → Bool))
    (filters : List FilterConfig) (jp : String) (sel : Option Json) (body : Json) :
    (extractDataFromResponse compile filters "" sel body = flattenJSON body "") ∧
    (jp ≠ "" → extractDataFromResponse compile filters jp none body = []) ∧
    (jp ≠ "" → ∀ sub, extractDataFromResponse compile filters jp (some sub) body =
      applyFilters compile filters (flattenJSON sub "")) := by
  refine ⟨by simp [extractDataFromResponse], fun h => by simp [extractDataFromResponse, h],
    fun h sub => by simp [extractDataFromResponse, h]⟩

/-- C10 witness: concrete branch evaluations; the empty-path branch keeps
all keys even under a filter set that would exclude everything. -/
theorem json_path_filter_branches_witness :
    extractDataFromResponse (fun _ => some (fun _ => true)) [⟨"exclude", "x"⟩] "" none (.num 5) =
      [("value", Json.num 5)] ∧
    extractDataFromResponse (fun _ => some (fun _ => true)) [⟨"exclude", "x"⟩] "p" none (.num 5) = [] ∧
    extractDataFromResponse (fun _ => some (fun _ => true)) [⟨"exclude", "x"⟩] "p"
      (some (.num 5)) (.num 5) =
      applyFilters (fun _ => some (fun _ => true)) [⟨"exclude", "x"⟩] (flattenJSON (.num 5) "") := by
  have h := json_path_filter_branches (fun _ => some (fun _ => true))
    [⟨"exclude", "x"⟩] "p" none (Json.num 5)
  refine ⟨?_, h.2.1 (by decide), h.2.2 (by decide) (.num 5)⟩
  rw [h.1]
  simp [flattenJSON]

/-- C5: during flattening an object with exactly one key whose lowercased
name is value collapses, binding the child value to the current prefix (or
to the literal key value when the prefix is empty); a singleton object with
any other key, and any object whose key count is not one — in particular one
holding value alongside sibling keys — is flattened by the normal field
recursion. -/
theorem flatten_value_collapse (k : String) (v : Json) (pfx : String)
    (fields : List (String × Json)) :
    (lowerStr k = "value" →
      flattenJSON (.obj [(k, v)]) pfx = [(if pfx = "" then "value" else pfx, v)]) ∧
    (lowerStr k ≠ "value" →
      flattenJSON (.obj [(k, v)]) pfx = flattenFields [(k, v)] pfx []) ∧
    (fields.length ≠ 1 → flattenJSON (.obj fields) pfx = flattenFields fields pfx []) := by
  refine ⟨fun h => ?_, fun h => ?_, fun h => ?_⟩
  · simp [flattenJSON, h]
  · simp [flattenJSON, h]
  · match fields, h with
    | [], _ => simp [flattenJSON]
    | [x], h => simp at h
    | (ka, va) :: (kb, vb) :: t, _ => simp [flattenJSON]

/-- C5 witness: the scenario S1 collapse (with a capitalised key to exercise
the lowercasing), and an object holding value alongside a sibling key, which
flattens normally. -/
theorem flatten_value_collapse_witness :
    flattenJSON (.obj [("Value", .num 1)]) "avg_response_time" =
      [("avg_response_time", Json.num 1)] ∧
    flattenJSON (.obj [("a", .null), ("value", .num 2)]) "p" =
      flattenFields [("a", .null), ("value", .num 2)] "p" [] := by
  constructor
  · have h := (flatten_value_collapse "Value" (.num 1) "avg_response_time" []).1 (by decide)
    rw [h]
    simp
  · exact (flatten_value_collapse "x" .null "p" [("a", .null), ("value", .num 2)]).2.2 (by decide)

/-- C4: ordered filter laws.  On any flat map with distinct keys, applying
include r then exclude r yields the empty map; applying exclude r then
include r yields exactly the entries whose keys match r; and a pattern the
regex engine rejects matches a key only through exact string equality. -/
theorem filter_order_laws (compile : String → Option (String → Bool)) (r : String)
    (data : FlatMap) (hnd : (data.map Prod.fst).Nodup) :
    applyFilters compile [⟨"include", r⟩, ⟨"exclude", r⟩] data = [] ∧
    applyFilters compile [⟨"exclude", r⟩, ⟨"include", r⟩] data =
      data.filter (fun kv => matchesFilter compile kv.1 r) ∧
    (∀ key pat, compile pat = none → matchesFilter compile key pat = (pat == key)) := by
  refine ⟨?_, ?_, fun key pat h => by simp [matchesFilter, h]⟩
  · simp only [applyFilters, List.isEmpty_cons, List.any_cons, List.any_nil]
    norm_num
    intro a b _ hmem
    exact include_fold_matching compile r data [] (by simp) (a, b) hmem
  · simp only [applyFilters, List.isEmpty_cons, List.any_cons, List.any_nil]
    norm_num
    exact include_fold_filter compile r data hnd [] (by simp)

/-- C4 witness: the two filter-order laws and the invalid-pattern fallback at
a concrete map, pattern and compile oracle that rejects every pattern. -/
theorem filter_order_laws_witness :
    applyFilters (fun _ => none) [⟨"include", "a"⟩, ⟨"exclude", "a"⟩]
      [("a", Json.num 1), ("b", Json.num 2)] = [] ∧
    applyFilters (fun _ => none) [⟨"exclude", "a"⟩, ⟨"include", "a"⟩]
      [("a", Json.num 1), ("b", Json.num 2)] =
      List.filter (fun kv => matchesFilter (fun _ => none) kv.1 "a")
        [("a", Json.num 1), ("b", Json.num 2)] ∧
    matchesFilter (fun _ => none) "b" "a" = ("a" == "b") := by
  have h := filter_order_laws (fun _ => none) "a" [("a", Json.num 1), ("b", Json.num 2)]
    (by decide)
  exact ⟨h.1, h.2.1, h.2.2 "b" "a" rfl⟩

/-- C6 counterexample: the claim ties the error condition to occurrence of
the macro in the template, but the source checks occurrence only after
substituting __CLUSTER__ (and __STARTTIME__): the template
__CLUSTER__STARTTIME__ contains __STARTTIME__ (sharing the double
underscore), yet with empty time specs the call succeeds because the
occurrence is destroyed by the cluster substitution.  A bare decimal
integer beyond int64 is also rejected although the claim's grammar accepts
any signed decimal integer. -/
theorem substitute_query_template_cex :
    strContains "__CLUSTER__STARTTIME__" startMacro = true ∧
    substituteQuery "" "" 0 "__CLUSTER__STARTTIME__" "prod" = .ok "prodSTARTTIME__" ∧
    parseInt64 "99999999999999999999999999" = none ∧
    isOkE (substituteQuery "99999999999999999999999999" "" 0 "__STARTTIME__" "c") = false := by
  exact ⟨rfl, rfl, rfl, rfl⟩

/-- C6 (amended): expansion fails exactly when a time macro is present at
the point where its substitution is attempted — __STARTTIME__ in the query
after __CLUSTER__ replacement, __ENDTIME__ after the __STARTTIME__ stage —
and the corresponding spec is empty or unparseable. -/
theorem substitute_query_error_iff (st et : String) (now : Int) (q c : String) :
    isOkE (substituteQuery st et now q c) = false ↔
      ((strContains (strReplaceAll q clusterMacro c) startMacro = true ∧
        (st = "" ∨ isOkE (parseTimeExpression now st) = false)) ∨
       (strContains (afterStartStage st now q c) endMacro = true ∧
        (et = "" ∨ isOkE (parseTimeExpression now et) = false))) := by
  unfold substituteQuery afterStartStage
  by_cases h1 : strContains (strReplaceAll q clusterMacro c) startMacro = true
  · rw [if_pos h1, if_pos h1]
    by_cases h2 : st = ""
    · rw [if_pos h2]
      exact iff_of_true rfl (Or.inl ⟨h1, Or.inl h2⟩)
    · rw [if_neg h2]
      cases hp : parseTimeExpression now st with
      | error e => exact iff_of_true rfl (Or.inl ⟨h1, Or.inr rfl⟩)
      | ok v =>
        rw [substEndStage_error_iff]
        constructor
        · exact fun h => Or.inr h
        · rintro (⟨-, h | h⟩ | h)
          · exact absurd h h2
          · cases h
          · exact h
  · rw [if_neg h1, if_neg h1]
    rw [substEndStage_error_iff]
    constructor
    · exact fun h => Or.inr h
    · rintro (⟨h, -⟩ | h)
      · exact absurd h h1
      · exact h

theorem sum_map_const {β : Type} (l : List β) (n : Nat) :
    (l.map (fun _ => n)).sum = l.length * n := by
  induction l with
  | nil => simp
  | cons b t ih => simp [ih, Nat.succ_mul, Nat.add_comm]

theorem genCombRec_length (ap : List (String × List Nat)) (paths : List String) :
    (generateCombinationsRecursive ap paths).length =
      (paths.map (fun p => (lookupIdxs ap p).length)).prod := by
  induction paths with
  | nil => simp [generateCombinationsRecursive]
  | cons p rest ih =>
    simp only [generateCombinationsRecursive, List.map_cons, List.prod_cons]
    rw [List.length_flatten, List.map_map]
    have hmap :
        List.map (List.length ∘ fun i =>
            (generateCombinationsRecursive ap rest).map (fun c => (p, i) :: c))
          (lookupIdxs ap p) =
        (lookupIdxs ap p).map (fun _ => (generateCombinationsRecursive ap rest).length) := by
      apply List.map_congr_left
      intro i _
      simp
    rw [hmap, sum_map_const, ih]

theorem addIdx_keys (gs : List (String × List Nat)) (p : String) (i : Nat) :
    (addIdx gs p i).map Prod.fst =
      if p ∈ gs.map Prod.fst then gs.map Prod.fst else gs.map Prod.fst ++ [p] := by
  induction gs with
  | nil => simp [addIdx]
  | cons e rest ih =>
    obtain ⟨p2, is⟩ := e
    by_cases hp : p2 = p
    · subst hp
      simp [addIdx]
    · simp only [addIdx, if_neg hp, List.map_cons, ih]
      by_cases hm : p ∈ rest.map Prod.fst
      · rw [if_pos hm, if_pos (by simp [hm])]
      · rw [if_neg hm, if_neg (by simp [hm, Ne.symm hp])]
        simp

theorem findArrayPaths_nodup (data : FlatMap) :
    ((findArrayPaths data).map Prod.fst).Nodup := by
  unfold findArrayPaths
  rw [List.map_map]
  have hfst : (Prod.fst ∘ fun e : String × List Nat => (e.1, sortNat e.2)) = Prod.fst := rfl
  rw [hfst]
  suffices h : ∀ (l : FlatMap) (acc : List (String × List Nat)), (acc.map Prod.fst).Nodup →
      ((l.foldl (fun acc kv =>
        match extractArrayPathAndIndex kv.1 with
        | some (path, idx) => if path ≠ "" then addIdx acc path idx else acc
        | none => acc) acc).map Prod.fst).Nodup by
    exact h data [] (by simp)
  intro l
  induction l with
  | nil => intro acc h; exact h
  | cons kv rest ih =>
    intro acc h
    simp only [List.foldl_cons]
    apply ih
    cases hE : extractArrayPathAndIndex kv.1 with
    | none => exact h
    | some pi =>
      obtain ⟨path, idx⟩ := pi
      dsimp only
      by_cases hp : path ≠ ""
      · rw [if_pos hp, addIdx_keys]
        by_cases hm : path ∈ acc.map Prod.fst
        · rw [if_pos hm]
          exact h
        · rw [if_neg hm]
          simp [List.nodup_append, h, hm]
      · rw [if_neg hp]
        exact h

theorem lookup_prod (ap : List (String × List Nat)) (hnd : (ap.map Prod.fst).Nodup) :
    ((ap.map Prod.fst).map (fun p => (lookupIdxs ap p).length)).prod =
      (ap.map (fun e => e.2.length)).prod := by
  induction ap with
  | nil => simp
  | cons e rest ih =>
    obtain ⟨p, is⟩ := e
    simp only [List.map_cons, List.nodup_cons] at hnd
    obtain ⟨hp, hrest⟩ := hnd
    simp only [List.map_cons, List.prod_cons]
    have h1 : lookupIdxs ((p, is) :: rest) p = is := by simp [lookupIdxs]
    rw [h1]
    congr 1
    have h2 : (rest.map Prod.fst).map (fun q => (lookupIdxs ((p, is) :: rest) q).length) =
        (rest.map Prod.fst).map (fun q => (lookupIdxs rest q).length) := by
      apply List.map_congr_left
      intro q hq
      have hqp : p ≠ q := fun h => hp (h ▸ hq)
      simp [lookupIdxs, hqp]
    rw [h2]
    exact ih hrest

theorem generateCSVRows_length (data : FlatMap) (uniqueKeys : List String) :
    (generateCSVRows data uniqueKeys).length =
      ((findArrayPaths data).map (fun e => e.2.length)).prod := by
  unfold generateCSVRows
  by_cases he : (findArrayPaths data).isEmpty = true
  · rw [if_pos he]
    rw [List.isEmpty_iff] at he
    simp [he]
  · rw [if_neg he]
    rw [List.length_map]
    unfold generateArrayCombinations
    rw [if_neg he, genCombRec_length]
    have hperm : (sortStr ((findArrayPaths data).map Prod.fst)).Perm
        ((findArrayPaths data).map Prod.fst) := List.perm_insertionSort _ _
    rw [List.Perm.prod_eq (hperm.map _)]
    exact lookup_prod _ (findArrayPaths_nodup data)

theorem rows_length_each (data : FlatMap) (uniqueKeys : List String) :
    ∀ row ∈ generateCSVRows data uniqueKeys, row.length = uniqueKeys.length := by
  intro row hrow
  unfold generateCSVRows at hrow
  by_cases he : (findArrayPaths data).isEmpty = true
  · rw [if_pos he] at hrow
    simp only [List.mem_singleton] at hrow
    rw [hrow, List.length_map]
  · rw [if_neg he] at hrow
    obtain ⟨comb, -, hcomb⟩ := List.mem_map.mp hrow
    rw [← hcomb, List.length_map]

set_option maxRecDepth 4000

/-- C2 counterexample: for the flat map with keys `[0].a` and `[1].a` the
specification's notion of observed array path (glossary: the prefix
preceding a bracketed index) yields the single path with the empty prefix
and two distinct indices, so the claimed product is 2 — but tabulation
produces exactly one row, because findArrayPaths discards bracketed indices
whose preceding prefix is empty. -/
theorem csv_row_count_spec_cex :
    (generateCSVRows topArrData (analyzeUniqueKeys topArrData)).length = 1 ∧
    ((specArrayPaths topArrData).map (fun e => e.2.length)).prod = 2 := by
  decide

/-- C2 (amended): the number of CSV rows equals the product, over the array
paths recorded by findArrayPaths (for each key holding at least one
bracketed index, the prefix preceding its last bracket, kept only when that
prefix is non-empty), of the number of distinct indices recorded at that
path; when findArrayPaths records nothing — in particular for a flat map
without bracketed keys — exactly one row is produced. -/
theorem csv_row_count_product (data : FlatMap) (uniqueKeys : List String) :
    (generateCSVRows data uniqueKeys).length =
      ((findArrayPaths data).map (fun e => e.2.length)).prod ∧
    (findArrayPaths data = [] → (generateCSVRows data uniqueKeys).length = 1) := by
  refine ⟨generateCSVRows_length data uniqueKeys, fun h => ?_⟩
  rw [generateCSVRows_length, h]
  rfl

/-- C2 witness: the product law and the one-row case evaluated on a flat map
without any bracketed key. -/
theorem csv_row_count_product_witness :
    (generateCSVRows plainData (analyzeUniqueKeys plainData)).length =
      ((findArrayPaths plainData).map (fun e => e.2.length)).prod ∧
    (generateCSVRows plainData (analyzeUniqueKeys plainData)).length = 1 := by
  have h := csv_row_count_product plainData (analyzeUniqueKeys plainData)
  exact ⟨h.1, h.2 (by decide)⟩

/-- C1: the depth-analysed tabulation evaluated on the canonical
nested-array flat map of the guide.  The seven de-indexed headers keep a
leading dot (stripping `[0]` from `[0].key` leaves `.key`) and therefore
differ from the documented seven; findArrayPaths records six array paths
(the top-level bracket has an empty prefix and is dropped, while the host
and cpu paths are recorded once per embedded index), so 64 rows are
produced instead of the documented 8. -/
theorem canonical_nested_array_tabulate :
    analyzeUniqueKeys canonicalData =
      [".avg_response_time", ".doc_count", ".hosts.buckets.cpu_usage.buckets.idle",
       ".hosts.buckets.cpu_usage.buckets.system", ".hosts.buckets.cpu_usage.buckets.user",
       ".hosts.buckets.key", ".key"] ∧
    findArrayPaths canonicalData =
      [("[0].hosts.buckets", [0, 1]), ("[0].hosts.buckets[0].cpu_usage.buckets", [0, 1]),
       ("[0].hosts.buckets[1].cpu_usage.buckets", [0, 1]), ("[1].hosts.buckets", [0, 1]),
       ("[1].hosts.buckets[0].cpu_usage.buckets", [0, 1]),
       ("[1].hosts.buckets[1].cpu_usage.buckets", [0, 1])] ∧
    (generateCSVRows canonicalData (analyzeUniqueKeys canonicalData)).length = 64 ∧
    analyzeUniqueKeys canonicalData ≠
      ["key", "doc_count", "avg_response_time", "hosts.buckets.key",
       "hosts.buckets.cpu_usage.buckets.system", "hosts.buckets.cpu_usage.buckets.user",
       "hosts.buckets.cpu_usage.buckets.idle"] ∧
    (generateCSVRows canonicalData (analyzeUniqueKeys canonicalData)).length ≠ 8 := by
  refine ⟨by decide, by decide, ?_, by decide, ?_⟩
  · rw [generateCSVRows_length]
    decide
  · rw [generateCSVRows_length]
    decide

theorem listLtB_iff_lex (cs ds : List Char) :
    listLtB cs ds = true ↔ List.Lex (· < ·) cs ds := by
  induction cs generalizing ds with
  | nil =>
    cases ds with
    | nil => simp [listLtB]
    | cons d ds => simpa [listLtB] using List.Lex.nil
  | cons c cs ih =>
    cases ds with
    | nil =>
      simp only [listLtB, Bool.false_eq_true, false_iff]
      intro h
      cases h
    | cons d ds =>
      simp only [listLtB]
      by_cases h1 : c < d
      · simp only [h1, if_true, true_iff]
        exact List.Lex.rel h1
      · by_cases h2 : d < c
        · simp only [h1, h2, if_false, if_true, Bool.false_eq_true, false_iff]
          intro h
          cases h with
          | rel h => exact absurd h h1
          | cons h => exact absurd rfl (ne_of_gt h2)
        · have hcd : c = d := le_antisymm (not_lt.mp h2) (not_lt.mp h1)
          subst hcd
          simp only [h1, if_false, ih ds]
          constructor
          · intro h
            exact List.Lex.cons h
          · intro h
            cases h with
            | rel h => exact absurd h h1
            | cons h => exact h

theorem strLeB_iff (a b : String) : strLeB a b = true ↔ a ≤ b := by
  rw [← not_lt, String.lt_iff_toList_lt]
  show (!(listLtB b.data a.data)) = true ↔ ¬ List.Lex (· < ·) b.data a.data
  rw [Bool.not_eq_true']
  constructor
  · intro h hlex
    rw [← listLtB_iff_lex] at hlex
    rw [h] at hlex
    cases hlex
  · intro h
    cases hEq : listLtB b.data a.data
    · rfl
    · exact absurd ((listLtB_iff_lex _ _).mp hEq) h

theorem sorted_sortStr (l : List String) : List.Sorted (· ≤ ·) (sortStr l) := by
  have htot : IsTotal String (fun a b => strLeB a b = true) :=
    ⟨fun a b => by
      simp only [strLeB_iff]
      exact le_total a b⟩
  have htrans : IsTrans String (fun a b => strLeB a b = true) :=
    ⟨fun a b c hab hbc => by
      simp only [strLeB_iff] at hab hbc ⊢
      exact le_trans hab hbc⟩
  have h := @List.sorted_insertionSort String (fun a b => strLeB a b = true) _ htot htrans l
  exact h.imp fun hr => (strLeB_iff _ _).mp hr

theorem mem_insertIfAbsent {l : List String} {k a : String} :
    a ∈ insertIfAbsent l k ↔ a ∈ l ∨ a = k := by
  unfold insertIfAbsent
  by_cases h : l.contains k
  · rw [if_pos h]
    constructor
    · exact Or.inl
    · rintro (h2 | h2)
      · exact h2
      · rw [h2]
        exact List.mem_of_elem_eq_true h
  · rw [if_neg h]
    simp

theorem nodup_insertIfAbsent {l : List String} (h : l.Nodup) (k : String) :
    (insertIfAbsent l k).Nodup := by
  unfold insertIfAbsent
  by_cases hc : l.contains k
  · rw [if_pos hc]
    exact h
  · rw [if_neg hc]
    have : k ∉ l := fun hm => hc (List.elem_eq_true_of_mem hm)
    simp [List.nodup_append, h, this]

theorem mem_foldl_insert (f : String → String) (ks : List String) :
    ∀ (acc : List String) (a : String),
      a ∈ ks.foldl (fun acc k => insertIfAbsent acc (f k)) acc ↔
        a ∈ acc ∨ ∃ k ∈ ks, f k = a := by
  induction ks with
  | nil => intro acc a; simp
  | cons k rest ih =>
    intro acc a
    simp only [List.foldl_cons]
    rw [ih, mem_insertIfAbsent, List.exists_mem_cons_iff]
    constructor
    · rintro ((h | h) | h)
      · exact Or.inl h
      · exact Or.inr (Or.inl h.symm)
      · exact Or.inr (Or.inr h)
    · rintro (h | h | h)
      · exact Or.inl (Or.inl h)
      · exact Or.inl (Or.inr h.symm)
      · exact Or.inr h

theorem nodup_foldl_insert (f : String → String) (ks : List String) :
    ∀ acc : List String, acc.Nodup →
      (ks.foldl (fun acc k => insertIfAbsent acc (f k)) acc).Nodup := by
  induction ks with
  | nil => intro acc h; exact h
  | cons k rest ih =>
    intro acc h
    simp only [List.foldl_cons]
    exact ih _ (nodup_insertIfAbsent h (f k))

theorem mem_dedupFirst {l : List String} {a : String} : a ∈ dedupFirst l ↔ a ∈ l := by
  have h : a ∈ dedupFirst l ↔ a ∈ ([] : List String) ∨ ∃ k ∈ l, k = a :=
    mem_foldl_insert (fun k => k) l [] a
  rw [h]
  simp [eq_comm]

theorem nodup_dedupFirst (l : List String) : (dedupFirst l).Nodup :=
  nodup_foldl_insert (fun k => k) l [] List.nodup_nil

theorem lookupGroup_addToGroup (gs : List (Nat × List String)) (d2 : Nat) (k2 : String)
    (d : Nat) :
    lookupGroup (addToGroup gs d2 k2) d =
      if d = d2 then lookupGroup gs d ++ [k2] else lookupGroup gs d := by
  induction gs with
  | nil =>
    by_cases h : d = d2
    · subst h
      simp [addToGroup, lookupGroup]
    · have h2 : ¬ d2 = d := fun hh => h hh.symm
      simp [addToGroup, lookupGroup, h, h2]
  | cons e rest ih =>
    obtain ⟨dd, ks⟩ := e
    by_cases h1 : dd = d2
    · subst h1
      by_cases h2 : d = dd
      · subst h2
        simp [addToGroup, lookupGroup]
      · have h3 : ¬ dd = d := fun hh => h2 hh.symm
        simp [addToGroup, lookupGroup, h2, h3]
    · simp only [addToGroup, if_neg h1]
      by_cases h2 : dd = d
      · have h3 : ¬ d = d2 := fun hh => h1 (h2.trans hh)
        simp [lookupGroup, h2, h3]
      · simp [lookupGroup, h2, ih]

theorem lookupGroup_fold (ks : List String) :
    ∀ (gs : List (Nat × List String)) (d : Nat),
      lookupGroup (ks.foldl (fun gs k => addToGroup gs (calculateKeyDepth k) k) gs) d =
        lookupGroup gs d ++ ks.filter (fun k => calculateKeyDepth k == d) := by
  induction ks with
  | nil => intro gs d; simp
  | cons k rest ih =>
    intro gs d
    simp only [List.foldl_cons, List.filter_cons]
    rw [ih, lookupGroup_addToGroup]
    by_cases h : d = calculateKeyDepth k
    · rw [if_pos h]
      have hb : (calculateKeyDepth k == d) = true := by simp [h]
      rw [hb]
      simp
    · rw [if_neg h]
      have hb : (calculateKeyDepth k == d) = false := by
        simp only [beq_eq_false_iff_ne, ne_eq]
        exact fun hh => h hh.symm
      rw [hb]
      simp

theorem le_foldl_max (f : String → Nat) (ks : List String) :
    ∀ m : Nat, m ≤ ks.foldl (fun m k => max m (f k)) m := by
  induction ks with
  | nil => intro m; exact le_refl m
  | cons k rest ih =>
    intro m
    simp only [List.foldl_cons]
    exact le_trans (le_max_left m (f k)) (ih (max m (f k)))

theorem mem_le_foldl_max (f : String → Nat) (ks : List String) :
    ∀ (m : Nat) (k : String), k ∈ ks → f k ≤ ks.foldl (fun m k => max m (f k)) m := by
  induction ks with
  | nil => intro m k h; cases h
  | cons k2 rest ih =>
    intro m k h
    simp only [List.foldl_cons]
    rcases List.mem_cons.mp h with h | h
    · subst h
      exact le_trans (le_max_right m (f k)) (le_foldl_max f rest _)
    · exact ih _ k h

theorem mem_depth_fold (grouped : List (Nat × List String)) (ds : List Nat) :
    ∀ (acc : List String) (a : String),
      a ∈ ds.foldl (fun acc d =>
          (lookupGroup grouped (d + 1)).foldl
            (fun acc2 k => insertIfAbsent acc2 (removeArrayIndices k)) acc) acc ↔
        a ∈ acc ∨ ∃ d ∈ ds, ∃ k ∈ lookupGroup grouped (d + 1), removeArrayIndices k = a := by
  induction ds with
  | nil => intro acc a; simp
  | cons d rest ih =>
    intro acc a
    simp only [List.foldl_cons]
    rw [ih, mem_foldl_insert, List.exists_mem_cons_iff]
    constructor
    · rintro ((h | h) | h)
      · exact Or.inl h
      · exact Or.inr (Or.inl h)
      · exact Or.inr (Or.inr h)
    · rintro (h | h | h)
      · exact Or.inl (Or.inl h)
      · exact Or.inl (Or.inr h)
      · exact Or.inr h

theorem nodup_depth_fold (grouped : List (Nat × List String)) (ds : List Nat) :
    ∀ acc : List String, acc.Nodup →
      (ds.foldl (fun acc d =>
          (lookupGroup grouped (d + 1)).foldl
            (fun acc2 k => insertIfAbsent acc2 (removeArrayIndices k)) acc) acc).Nodup := by
  induction ds with
  | nil => intro acc h; exact h
  | cons d rest ih =>
    intro acc h
    simp only [List.foldl_cons]
    exact ih _ (nodup_foldl_insert _ _ acc h)

theorem calculateKeyDepth_pos (k : String) : 1 ≤ calculateKeyDepth k := by
  unfold calculateKeyDepth
  omega

theorem mem_analyzeUniqueKeys (data : FlatMap) (a : String) :
    a ∈ analyzeUniqueKeys data ↔ ∃ k ∈ data.map Prod.fst, removeArrayIndices k = a := by
  unfold analyzeUniqueKeys sortStr
  rw [List.Perm.mem_iff (List.perm_insertionSort _ _)]
  rw [mem_depth_fold]
  simp only [List.not_mem_nil, false_or, List.mem_range]
  constructor
  · rintro ⟨d, -, k, hk, hdi⟩
    rw [lookupGroup_fold, List.mem_append] at hk
    rcases hk with hk | hk
    · cases hk
    · obtain ⟨hmem, -⟩ := List.mem_filter.mp hk
      exact ⟨k, mem_dedupFirst.mp hmem, hdi⟩
  · rintro ⟨k, hk, hdi⟩
    have hk2 : k ∈ dedupFirst (data.map Prod.fst) := mem_dedupFirst.mpr hk
    refine ⟨calculateKeyDepth k - 1, ?_, k, ?_, hdi⟩
    · have h1 := calculateKeyDepth_pos k
      have h2 := mem_le_foldl_max calculateKeyDepth (dedupFirst (data.map Prod.fst)) 0 k hk2
      omega
    · rw [lookupGroup_fold, List.mem_append]
      refine Or.inr (List.mem_filter.mpr ⟨hk2, ?_⟩)
      have h1 := calculateKeyDepth_pos k
      have : calculateKeyDepth k - 1 + 1 = calculateKeyDepth k := by omega
      simp [this]

theorem nodup_analyzeUniqueKeys (data : FlatMap) : (analyzeUniqueKeys data).Nodup := by
  unfold analyzeUniqueKeys sortStr
  refine (List.Perm.nodup_iff (List.perm_insertionSort _ _)).mpr ?_
  exact nodup_depth_fold _ _ [] List.nodup_nil

theorem length_analyzeUniqueKeys (data : FlatMap) :
    (analyzeUniqueKeys data).length =
      ((data.map Prod.fst).map removeArrayIndices).dedup.length := by
  apply List.Perm.length_eq
  apply (List.perm_ext_iff_of_nodup (nodup_analyzeUniqueKeys data) (List.nodup_dedup _)).mpr
  intro a
  rw [mem_analyzeUniqueKeys, List.mem_dedup, List.mem_map]

/-- C3: the header vector is the lexicographically sorted deduplication of
the de-indexed keys: sorted, duplicate-free, containing exactly the
de-indexed keys of the flat map, with length the number of distinct
de-indexed keys; and every produced row has exactly one cell per header. -/
theorem csv_headers_sorted_dedup (data : FlatMap) :
    List.Sorted (· ≤ ·) (analyzeUniqueKeys data) ∧
    (analyzeUniqueKeys data).Nodup ∧
    (∀ a, a ∈ analyzeUniqueKeys data ↔ ∃ k ∈ data.map Prod.fst, removeArrayIndices k = a) ∧
    (analyzeUniqueKeys data).length =
      ((data.map Prod.fst).map removeArrayIndices).dedup.length ∧
    (∀ row ∈ generateCSVRows data (analyzeUniqueKeys data),
      row.length = (analyzeUniqueKeys data).length) := by
  refine ⟨?_, nodup_analyzeUniqueKeys data, mem_analyzeUniqueKeys data,
    length_analyzeUniqueKeys data, rows_length_each data _⟩
  have h : List.Sorted (· ≤ ·) (sortStr ((List.range
      ((dedupFirst (data.map Prod.fst)).foldl
        (fun m k => max m (calculateKeyDepth k)) 0)).foldl
      (fun acc d =>
        (lookupGroup ((dedupFirst (data.map Prod.fst)).foldl
            (fun gs k => addToGroup gs (calculateKeyDepth k) k) []) (d + 1)).foldl
          (fun a k => insertIfAbsent a (removeArrayIndices k)) acc) [])) :=
    sorted_sortStr _
  exact h

/-- C3 witness: the header properties and the row-width law evaluated on the
two-key top-level-array flat map. -/
theorem csv_headers_sorted_dedup_witness :
    (analyzeUniqueKeys topArrData).Nodup ∧
    ((".a" : String) ∈ analyzeUniqueKeys topArrData ↔
      ∃ k ∈ topArrData.map Prod.fst, removeArrayIndices k = ".a") ∧
    (analyzeUniqueKeys topArrData).length =
      ((topArrData.map Prod.fst).map removeArrayIndices).dedup.length ∧
    (1 : Nat) = (analyzeUniqueKeys topArrData).length := by
  have h := csv_headers_sorted_dedup topArrData
  refine ⟨h.2.1, h.2.2.1 ".a", h.2.2.2.1, ?_⟩
  have hrow : ["1"] ∈ generateCSVRows topArrData (analyzeUniqueKeys topArrData) := by decide
  have := h.2.2.2.2 ["1"] hrow
  simpa using this

/-- C7 witness: a run with one failed and one successful endpoint call
neither fails nor carries the failed call's contribution. -/
theorem extract_all_fail_iff_witness :
    (isOkE (extractCollect [Except.error "boom", Except.ok (7 : Nat)]) = false ↔
      ([Except.error "boom", Except.ok (7 : Nat)] ≠ [] ∧
        ∀ o ∈ [Except.error "boom", Except.ok (7 : Nat)], isOkE o = false)) ∧
    extractCollect [Except.error "boom", Except.ok (7 : Nat)] =
      .ok (okResults [Except.error "boom", Except.ok (7 : Nat)]) := by
  have h := extract_all_fail_iff [Except.error "boom", Except.ok (7 : Nat)]
  exact ⟨h.1, h.2 ⟨.ok 7, by simp, rfl⟩⟩

theorem acceptedRows_append (parseF : String → Option V) (parseI : String → Option Int)
    (metric : PrometheusMetricConfig) (rows : List (List String)) (r : List String) :
    acceptedRows parseF parseI metric (rows ++ [r]) =
      acceptedRows parseF parseI metric rows ++
        (if (rowAccept parseF parseI metric r).isSome then [r] else []) := by
  unfold acceptedRows
  rw [List.filter_append]
  congr 1
  by_cases h : (rowAccept parseF parseI metric r).isSome
  · simp [h]
  · simp only [Bool.not_eq_true] at h
    simp [h]

theorem samplesFor_append (parseF : String → Option V) (parseI : String → Option Int)
    (metric : PrometheusMetricConfig) (rows : List (List String)) (r : List String)
    (k : String) :
    samplesFor parseF parseI metric (rows ++ [r]) k =
      samplesFor parseF parseI metric rows k ++
        (match rowAccept parseF parseI metric r with
         | some (v, ts) => if rowKey metric r = k then [(v, ts, r)] else []
         | none => []) := by
  unfold samplesFor
  rw [List.filterMap_append]
  congr 1
  cases h : rowAccept parseF parseI metric r with
  | none => simp [h]
  | some p =>
    obtain ⟨v, ts⟩ := p
    by_cases hk : rowKey metric r = k
    · simp [h, hk]
    · simp [h, hk]

theorem samplesFor_nil_of_not_mem (parseF : String → Option V) (parseI : String → Option Int)
    (metric : PrometheusMetricConfig) (rows : List (List String)) (k : String)
    (h : k ∉ (acceptedRows parseF parseI metric rows).map (rowKey metric)) :
    samplesFor parseF parseI metric rows k = [] := by
  unfold samplesFor
  rw [List.filterMap_eq_nil_iff]
  intro r hr
  cases ha : rowAccept parseF parseI metric r with
  | none => rfl
  | some p =>
    obtain ⟨v, ts⟩ := p
    by_cases hk : rowKey metric r = k
    · exfalso
      apply h
      rw [← hk]
      refine List.mem_map_of_mem (rowKey metric) ?_
      unfold acceptedRows
      refine List.mem_filter.mpr ⟨hr, ?_⟩
      simp [ha]
    · simp [hk]

theorem addSample_mapShape (ks : List String)
    (f : String → List (V × Int × List String)) (k0 : String)
    (s : V × Int × List String) (hnd : ks.Nodup) (hf : k0 ∉ ks → f k0 = []) :
    addSample (ks.map (fun k => (k, f k))) k0 s =
      (insertIfAbsent ks k0).map
        (fun k => (k, f k ++ if k0 = k then [s] else [])) := by
  induction ks with
  | nil =>
    simp only [List.map_nil, addSample, insertIfAbsent]
    rw [if_neg (by simp)]
    simp [hf (by simp)]
  | cons k ks ih =>
    simp only [List.map_cons, addSample]
    by_cases hk : k = k0
    · subst hk
      rw [if_pos rfl]
      rw [insertIfAbsent, if_pos (List.elem_eq_true_of_mem (by simp))]
      simp only [List.map_cons, List.cons.injEq]
      refine ⟨by simp, ?_⟩
      have hne := (List.nodup_cons.mp hnd).1
      symm
      apply List.map_congr_left
      intro k2 hk2
      have : ¬ k = k2 := fun hh => hne (hh ▸ hk2)
      simp [this]
    · rw [if_neg hk]
      have hnd2 := (List.nodup_cons.mp hnd).2
      have hf2 : k0 ∉ ks → f k0 = [] := by
        intro h2
        apply hf
        intro hmem
        rcases List.mem_cons.mp hmem with h3 | h3
        · exact hk h3.symm
        · exact h2 h3
      rw [ih hnd2 hf2]
      by_cases hm : k0 ∈ ks
      · have h1 : ks.contains k0 = true := List.elem_eq_true_of_mem hm
        have h2 : (k :: ks).contains k0 = true :=
          List.elem_eq_true_of_mem (List.mem_cons_of_mem _ hm)
        rw [insertIfAbsent, if_pos h1, insertIfAbsent, if_pos h2]
        have hne2 : ¬ k0 = k := fun hh => hk hh.symm
        simp [hne2]
      · have h1 : ¬ ks.contains k0 = true :=
          fun hc => hm (List.mem_of_elem_eq_true hc)
        have h2 : ¬ (k :: ks).contains k0 = true := by
          intro hc
          rcases List.mem_cons.mp (List.mem_of_elem_eq_true hc) with h3 | h3
          · exact hk h3.symm
          · exact hm h3
        rw [insertIfAbsent, if_neg h1, insertIfAbsent, if_neg h2]
        have hne2 : ¬ k0 = k := fun hh => hk hh.symm
        simp [hne2]

theorem dedupFirst_append_single (l : List String) (a : String) :
    dedupFirst (l ++ [a]) = insertIfAbsent (dedupFirst l) a := by
  unfold dedupFirst
  rw [List.foldl_append]
  rfl

theorem groups_fold_spec (parseF : String → Option V) (parseI : String → Option Int)
    (metric : PrometheusMetricConfig) (csvData : List (List String)) :
    groupRows parseF parseI metric csvData =
    (dedupFirst ((acceptedRows parseF parseI metric csvData).map (rowKey metric))).map
      (fun k => (k, samplesFor parseF parseI metric csvData k)) := by
  induction csvData using List.reverseRecOn with
  | nil => simp [groupRows, acceptedRows, samplesFor, dedupFirst]
  | append_singleton rows r ih =>
    unfold groupRows at ih ⊢
    rw [List.foldl_append, List.foldl_cons, List.foldl_nil, ih]
    cases ha : rowAccept parseF parseI metric r with
    | none =>
      simp only [ha]
      rw [acceptedRows_append, ha]
      simp only [Option.isSome_none, Bool.false_eq_true, if_false, List.append_nil]
      apply List.map_congr_left
      intro k hk
      rw [samplesFor_append, ha]
      simp
    | some p =>
      obtain ⟨v, ts⟩ := p
      simp only [ha]
      have hf : rowKey metric r ∉
          dedupFirst ((acceptedRows parseF parseI metric rows).map (rowKey metric)) →
          samplesFor parseF parseI metric rows (rowKey metric r) = [] := by
        intro hnm
        refine samplesFor_nil_of_not_mem parseF parseI metric rows _ ?_
        intro hm
        exact hnm (mem_dedupFirst.mpr hm)
      rw [addSample_mapShape _ _ _ _ (nodup_dedupFirst _) hf]
      rw [acceptedRows_append, ha]
      simp only [Option.isSome_some, if_true, List.map_append, List.map_cons, List.map_nil]
      rw [dedupFirst_append_single]
      apply List.map_congr_left
      intro k hk
      rw [samplesFor_append, ha]

/-- C8: the time-series grouping agrees with its specification: one series
per distinct group key of the accepted rows in first-encounter order, whose
samples are the group's parsed (value, timestamp) pairs in row order and
whose labels come from the static-value / csv-column rules plus __name__
applied to the group's first row; and a row is skipped by the length guard
exactly when its length is at most max(valueCol, timestampCol). -/
theorem grouped_time_series_spec (parseF : String → Option V)
    (parseI : String → Option Int) (glabels : List (String × String))
    (csvData : List (List String)) (metric : PrometheusMetricConfig) :
    createPrometheusTimeSeriesForMetric parseF parseI glabels csvData metric =
      seriesSpec parseF parseI glabels csvData metric ∧
    (∀ row : List String,
      (row.length ≤ metric.value ∨ row.length ≤ metric.timestamp) ↔
        row.length ≤ max metric.value metric.timestamp) := by
  constructor
  · unfold createPrometheusTimeSeriesForMetric seriesSpec
    rw [groups_fold_spec, List.filterMap_map]
    rfl
  · intro row
    exact le_max_iff.symm

end ElasticETL
